import Mathlib

/-!
Verification of the yammap memory-mapped-file package (Go) against its
specification.  The Go code is shallowly embedded: the `Mmap` struct becomes a
Lean structure, each method becomes a pure function returning its results
together with the successor state, and a Go runtime panic that escapes a method
(e.g. an out-of-range slice expression evaluated outside the recover-protected
`safeCopy`) is modelled by the `GoResult.panic` constructor.

Modelling conventions:
* Machine integers (`int64`, `int`) are modelled as `Int`/`Nat`.  All sizes in
  play stay far below 2^63, and the code's own guard (`size >= maxSize`, with
  `maxSize = 2^47 - 1` on linux/amd64) keeps every accepted size small, so the
  embedding uses unbounded integers.
* The kernel primitives are modelled with their deterministic failure modes
  on the arguments this code can pass: `mmap`/`mremap` reject a zero length
  (EINVAL) and a wrapped negative length, `mremap` cannot resize a nil
  mapping, and `ftruncate` fails on a descriptor not opened for writing
  (`O_RDONLY` flag) or with a negative length.  `ftruncate` is modelled by
  tracking the backing file's size in the `fileSize` field; since every
  mapping the package creates is `MAP_SHARED` and is always (re)established
  together with an `ftruncate` to the same length, the mapped bytes `data`
  double as the file's content while a mapping exists.
* `safeCopy` recovers page faults and returns them as errors.  With the flags
  this revision uses, the one deterministic fault is writing into a mapping
  established with `PROT_READ` only (handle opened read-only): the first byte
  written faults, nothing is copied, and the recovered fault is returned.
  The slice expressions `m.Data[off:]` that are evaluated *before* calling
  `safeCopy` panic (and crash the process) when `off` is out of range;
  `sliceCopyAt` models the slicing, the copy and the recovered fault.
-/

namespace Yammap

/-- Bytes are modelled as natural numbers; no claim depends on the byte width. -/
abbrev Byte := Nat

/-- `maxSize` from `syscall_linux_amd64.go`: `(1 << 47) - 1`. -/
def maxSize : Int := 2 ^ 47 - 1

def O_WRONLY : Nat := 1

def O_RDWR : Nat := 2

def O_APPEND : Nat := 1024

def O_CREATE : Nat := 64

/-- Seek whence values (`SEEK_SET`, `SEEK_CUR`, `SEEK_END`). -/
def SEEK_SET : Nat := 0

def SEEK_CUR : Nat := 1

def SEEK_END : Nat := 2

/-- The error values the package can return.  `mapError` stands for the
`fmt.Errorf` values produced on `mmap`/`mremap` failures (including the
"requested size bigger than arch maxSize" guard), `ioError` for failures of
the backing-file syscalls, `eof` for `io.EOF`, `shortWrite` for
`io.ErrShortWrite`, `pageFault` for the "Page fault" error `safeCopy`
returns after recovering a faulting copy, and the remaining constructors for
the `errors.New` values of `Seek` and `WriteAt`. -/
inductive Err where
  | eof
  | shortWrite
  | mapError
  | ioError
  | pageFault
  | negativePosition
  | outOfRange
  | invalidWhence
  | invalidOperation
  deriving DecidableEq

/-- State of an `Mmap` handle (`yammap.go`, struct `Mmap`):
`flag` is the open flag, `offset` the I/O cursor, `data` the mapped region
(`none` models a nil Go slice, i.e. no mapping), `append` the cached
`flag&os.O_APPEND != 0`, and `fileSize` the current length of the backing
file (mutated by the `ftruncate` the code issues around every map/remap). -/
structure Mmap where
  flag : Nat
  offset : Int
  data : Option (List Byte)
  append : Bool
  fileSize : Int
  deriving DecidableEq

/-- Result of a Go call: a normal return, or a runtime panic escaping the
function (which crashes the process, since no caller recovers it). -/
inductive GoResult (α : Type) where
  | ret : α → GoResult α
  | panic : GoResult α
  deriving DecidableEq

/-- Whether `mmap` maps the region writable: protection is
`PROT_READ|PROT_WRITE` when the flag has `O_WRONLY` or `O_RDWR`
(`yammap.go` lines 303-311); only then is the backing file truncated. -/
def protWrite (flag : Nat) : Bool :=
  flag &&& O_WRONLY ≠ 0 || flag &&& O_RDWR ≠ 0

/-- Content of the file/region after resizing to `n` bytes: kept prefix plus
zero fill (an `ftruncate` extension reads back as zeros, and `mremap` pages
beyond the old length are backed by the newly extended file). -/
def resizeBytes (d : List Byte) (n : Nat) : List Byte :=
  d.take n ++ List.replicate (n - d.length) 0

/-- The slice expression `d[pos:]` followed by `safeCopy(d[pos:], b)`, as
used by `Write`/`WriteAt`.  The slicing panics unless `0 ≤ pos ≤ len(d)`;
the panic happens before `safeCopy` runs, so it is not recovered.  The copy
then writes `b` into the mapping: when the mapping is not writable
(`writable = false`, i.e. the handle was opened read-only so the region is
mapped `PROT_READ`) the first byte written faults; `safeCopy` recovers the
fault and returns it as an error with nothing copied.  On success returns
the byte count and the updated region. -/
def sliceCopyAt (writable : Bool) (d : List Byte) (pos : Int) (b : List Byte) :
    GoResult (Nat × Option Err × List Byte) :=
  if pos < 0 ∨ (d.length : Int) < pos then .panic
  else
    let p := pos.toNat
    let n := min b.length (d.length - p)
    if writable = false ∧ 0 < n then .ret (0, some .pageFault, d)
    else .ret (n, none, d.take p ++ b.take n ++ d.drop (p + n))

/-- `Mmap.mmap` (`yammap.go` lines 299-336).  `fileContent` is the current
content of the backing file referenced by `m.fd` (the Go method reads it
implicitly through the descriptor).  The guard rejects `size >= maxSize`.
With a writable flag (`O_WRONLY` or `O_RDWR`) the file is truncated to
`size` first — `ftruncate` rejects a negative length — and the map syscall
then rejects a zero length (EINVAL), after the truncation already happened.
With a read-only flag there is no truncation and the map syscall rejects a
non-positive length.  A successful mapping views the (possibly resized)
file content. -/
def Mmap.mmap (m : Mmap) (fileContent : List Byte) (size : Int) :
    Option Err × Mmap :=
  if maxSize ≤ size then (some .mapError, m)
  else if protWrite m.flag then
    if size < 0 then (some .ioError, m)
    else if size = 0 then (some .mapError, { m with fileSize := size })
    else
      (none, { m with
        data := some (resizeBytes fileContent size.toNat), fileSize := size })
  else
    if size ≤ 0 then (some .mapError, m)
    else (none, { m with data := some (resizeBytes fileContent size.toNat) })

/-- `Mmap.mremap` (`yammap.go` lines 339-375).  Guard: `size >= maxSize`
fails.  `size == 0`: `&m.Data[0]` panics on a nil mapping; otherwise munmap
succeeds and the mapping is cleared, and the trailing `ftruncate(0)` fails
on a descriptor not opened for writing (the error is returned with the
mapping already gone).  For a non-zero size, `ftruncate(size)` runs first
and fails on a read-only descriptor or a negative length, changing nothing;
then the remap syscall resizes the region in place (failing if there is no
mapping to resize, after the truncation already happened). -/
def Mmap.mremap (m : Mmap) (size : Int) : GoResult (Option Err × Mmap) :=
  if maxSize ≤ size then .ret (some .mapError, m)
  else if size = 0 then
    match m.data with
    | none => .panic
    | some _ =>
        if protWrite m.flag then
          .ret (none, { m with data := none, fileSize := 0 })
        else .ret (some .ioError, { m with data := none })
  else if protWrite m.flag = false then .ret (some .ioError, m)
  else if size < 0 then .ret (some .ioError, m)
  else
    match m.data with
    | none => .ret (some .mapError, { m with fileSize := size })
    | some d =>
        .ret (none,
          { m with data := some (resizeBytes d size.toNat), fileSize := size })

/-- `Size` (`yammap.go` lines 153-162): length of the mapped region, `0` when
unmapped (`len(nil) = 0`). -/
def Mmap.Size (m : Mmap) : Int :=
  ((m.data.getD []).length : Int)

/-- `Offset` accessor. -/
def Mmap.Offset (m : Mmap) : Int :=
  m.offset

/-- Common tail of `Seek`: bounds-check the computed absolute position and
commit it. -/
def Mmap.seekAbs (m : Mmap) (abs : Int) : Int × Option Err × Mmap :=
  if abs < 0 then (0, some .negativePosition, m)
  else if ((m.data.getD []).length : Int) < abs then (0, some .outOfRange, m)
  else (abs, none, { m with offset := abs })

/-- `Seek` (`yammap.go` lines 181-203). -/
def Mmap.Seek (m : Mmap) (offset : Int) (whence : Nat) :
    Int × Option Err × Mmap :=
  if whence = SEEK_SET then m.seekAbs offset
  else if whence = SEEK_CUR then m.seekAbs (m.offset + offset)
  else if whence = SEEK_END then
    m.seekAbs (((m.data.getD []).length : Int) + offset)
  else (0, some .invalidWhence, m)

/-- `Read` (`yammap.go` lines 119-133).  Returns the byte count, the caller's
buffer after the copy, the error, and the successor state. -/
def Mmap.Read (m : Mmap) (b : List Byte) :
    GoResult (Nat × List Byte × Option Err × Mmap) :=
  match m.data with
  | none => .ret (0, b, some .eof, m)
  | some d =>
    if (d.length : Int) ≤ m.offset then .ret (0, b, some .eof, m)
    else if m.offset < 0 then .panic
    else
      let off := m.offset.toNat
      let n := min b.length (d.length - off)
      .ret (n, (d.drop off).take n ++ b.drop n, none,
        { m with offset := m.offset + (n : Int) })

/-- `ReadAt` (`yammap.go` lines 137-151). -/
def Mmap.ReadAt (m : Mmap) (b : List Byte) (off : Int) :
    GoResult (Nat × List Byte × Option Err × Mmap) :=
  match m.data with
  | none => .ret (0, b, some .eof, m)
  | some d =>
    if (d.length : Int) ≤ off then .ret (0, b, some .eof, m)
    else if off < 0 then .panic
    else
      let o := off.toNat
      let n := min b.length (d.length - o)
      .ret (n, (d.drop o).take n ++ b.drop n,
        if n < b.length then some .eof else none, m)

/-- Tail of `Write` after the map/remap decisions: `safeCopy` at the cursor.
A recovered page fault is returned as-is with the cursor not advanced;
otherwise the cursor advances and `ShortWrite` is reported when fewer bytes
than requested landed. -/
def Mmap.writeFinish (m : Mmap) (b : List Byte) :
    GoResult (Nat × Option Err × Mmap) :=
  match sliceCopyAt (protWrite m.flag) (m.data.getD []) m.offset b with
  | .panic => .panic
  | .ret (n, some e, _) => .ret (n, some e, m)
  | .ret (n, none, d') =>
      .ret (n, if n = b.length then none else some .shortWrite,
        { m with data := m.data.map (fun _ => d'), offset := m.offset + (n : Int) })

/-- `Write` (`yammap.go` lines 207-238).  With no mapping, map the (empty)
backing file at the buffer's length — the only states with a nil mapping are
those where the file is empty.  Otherwise, append mode first forces the
cursor to the end; a write reaching past the end remaps to
`len(Data) + len(b)`. -/
def Mmap.Write (m : Mmap) (b : List Byte) :
    GoResult (Nat × Option Err × Mmap) :=
  match m.data with
  | none =>
    match m.mmap [] (b.length : Int) with
    | (some e, m1) => .ret (0, some e, m1)
    | (none, m1) => m1.writeFinish b
  | some d =>
    let m1 := if m.append then { m with offset := (d.length : Int) } else m
    if (d.length : Int) < m1.offset + (b.length : Int) then
      match m1.mremap ((d.length : Int) + (b.length : Int)) with
      | .panic => .panic
      | .ret (some e, m2) => .ret (0, some e, m2)
      | .ret (none, m2) => m2.writeFinish b
    else m1.writeFinish b

/-- Tail of `WriteAt`: `safeCopy` at the explicit offset; the cursor is
never touched.  A recovered page fault is returned as-is. -/
def Mmap.writeAtFinish (m : Mmap) (b : List Byte) (off : Int) :
    GoResult (Nat × Option Err × Mmap) :=
  match sliceCopyAt (protWrite m.flag) (m.data.getD []) off b with
  | .panic => .panic
  | .ret (n, some e, _) => .ret (n, some e, m)
  | .ret (n, none, d') =>
      .ret (n, if n = b.length then none else some .shortWrite,
        { m with data := m.data.map (fun _ => d') })

/-- `WriteAt` (`yammap.go` lines 242-266).  Rejected outright in append mode;
with no mapping, maps at `off + len(b)`; a write past the end remaps to
`len(Data) + len(b)`. -/
def Mmap.WriteAt (m : Mmap) (b : List Byte) (off : Int) :
    GoResult (Nat × Option Err × Mmap) :=
  if m.append then .ret (0, some .invalidOperation, m)
  else match m.data with
  | none =>
    match m.mmap [] (off + (b.length : Int)) with
    | (some e, m1) => .ret (0, some e, m1)
    | (none, m1) => m1.writeAtFinish b off
  | some d =>
    if (d.length : Int) < off + (b.length : Int) then
      match m.mremap ((d.length : Int) + (b.length : Int)) with
      | .panic => .panic
      | .ret (some e, m2) => .ret (0, some e, m2)
      | .ret (none, m2) => m2.writeAtFinish b off
    else m.writeAtFinish b off

/-- `Truncate` (`yammap.go` lines 269-274): delegates to `mremap` and does not
touch the cursor. -/
def Mmap.Truncate (m : Mmap) (size : Int) : GoResult (Option Err × Mmap) :=
  m.mremap size

/-- `Close` (`yammap.go` lines 84-100): munmap and close the descriptor.  The
Go code never clears the `Data` field (only the local pointer is nilled), so
the modelled fields are unchanged. -/
def Mmap.Close (m : Mmap) : Option Err × Mmap :=
  (none, m)

/-- `OpenFile` (`yammap.go` lines 42-64).  `content` is the named file's
current bytes (`stat.Size()` is its length); a mapping is established only
when the file is non-empty. -/
def OpenFile (content : List Byte) (flag : Nat) : Except Err Mmap :=
  let m : Mmap :=
    { flag := flag, offset := 0, data := none,
      append := flag &&& O_APPEND ≠ 0, fileSize := (content.length : Int) }
  if 0 < content.length then
    match m.mmap content (content.length : Int) with
    | (some e, _) => .error e
    | (none, m') => .ok m'
  else .ok m

/-- `Create` (`yammap.go` lines 67-81), for a freshly created (hence empty)
file.  Note that `Create` does not set the `append` field, regardless of the
flag. -/
def Create (size : Int) (flag : Nat) : Except Err Mmap :=
  let m : Mmap :=
    { flag := flag, offset := 0, data := none, append := false, fileSize := 0 }
  match m.mmap [] size with
  | (some e, _) => .error e
  | (none, m') => .ok m'

/-- Modelled from the spec: the process-wide platform page granularity
(`pageSize`, queried once at startup per the spec's data model).  The
revision under `src/` never defines or consults a page size; 4096 is the
value on the targeted Linux platforms.  Used only to state the spec's
alignment claims. -/
def pageSize : Nat := 4096

/-- Modelled from the spec (resize engine, step 1): `align` rounds a
requested size up to the next multiple of `pageSize`, aligning 0 to one full
page.  The code under `src/` contains no such function; this definition
exists to compare the spec's claimed sizes with the code's actual ones. -/
def alignSpec (n : Int) : Int :=
  if n = 0 then (pageSize : Int)
  else (pageSize : Int) * ((n + (pageSize : Int) - 1) / (pageSize : Int))


/-- One public operation on a handle, relating the state before to the state
after (whether the call succeeds or returns an error; a panic has no
successor state). -/
inductive Step : Mmap → Mmap → Prop where
  | read (m : Mmap) (b : List Byte) (n : Nat) (b' : List Byte) (e : Option Err)
      (m' : Mmap) : m.Read b = .ret (n, b', e, m') → Step m m'
  | write (m : Mmap) (b : List Byte) (n : Nat) (e : Option Err) (m' : Mmap) :
      m.Write b = .ret (n, e, m') → Step m m'
  | writeAt (m : Mmap) (b : List Byte) (off : Int) (n : Nat) (e : Option Err)
      (m' : Mmap) : m.WriteAt b off = .ret (n, e, m') → Step m m'
  | seek (m : Mmap) (off : Int) (w : Nat) (p : Int) (e : Option Err)
      (m' : Mmap) : m.Seek off w = (p, e, m') → Step m m'
  | truncateStep (m : Mmap) (sz : Int) (e : Option Err) (m' : Mmap) :
      m.Truncate sz = .ret (e, m') → Step m m'
  | closeStep (m : Mmap) (e : Option Err) (m' : Mmap) :
      m.Close = (e, m') → Step m m'

/-- A handle as produced by `OpenFile` or `Create`. -/
inductive InitHandle : Mmap → Prop where
  | openFile (content : List Byte) (flag : Nat) (m : Mmap) :
      OpenFile content flag = .ok m → InitHandle m
  | create (size : Int) (flag : Nat) (m : Mmap) :
      Create size flag = .ok m → InitHandle m

/-- States reachable from a fresh handle through the public operations. -/
def Reachable (m : Mmap) : Prop :=
  ∃ m0, InitHandle m0 ∧ Relation.ReflTransGen Step m0 m

end Yammap

namespace Yammap

theorem resizeBytes_length (d : List Byte) (n : Nat) :
    (resizeBytes d n).length = n := by
  simp [resizeBytes]
  omega

theorem sliceCopyAt_writable_ret (d : List Byte) (pos : Int) (b : List Byte)
    (h0 : 0 ≤ pos) (h1 : pos ≤ (d.length : Int)) :
    sliceCopyAt true d pos b = .ret (min b.length (d.length - pos.toNat), none,
      d.take pos.toNat ++ b.take (min b.length (d.length - pos.toNat)) ++
        d.drop (pos.toNat + min b.length (d.length - pos.toNat))) := by
  simp only [sliceCopyAt]
  rw [if_neg (by omega)]
  simp

theorem sliceCopyAt_ret_of_inbounds (w : Bool) (d : List Byte) (pos : Int)
    (b : List Byte) (h0 : 0 ≤ pos) (h1 : pos ≤ (d.length : Int)) :
    ∃ r, sliceCopyAt w d pos b = .ret r := by
  simp only [sliceCopyAt]
  rw [if_neg (by omega)]
  split
  · exact ⟨_, rfl⟩
  · exact ⟨_, rfl⟩

theorem sliceCopyAt_inv (w : Bool) (d : List Byte) (pos : Int)
    (b : List Byte) (n : Nat) (e : Option Err) (d' : List Byte)
    (h : sliceCopyAt w d pos b = .ret (n, e, d')) :
    0 ≤ pos ∧ pos ≤ (d.length : Int) ∧
      ((e = some .pageFault ∧ n = 0 ∧ d' = d) ∨
        (e = none ∧ n = min b.length (d.length - pos.toNat) ∧
          d' = d.take pos.toNat ++ b.take n ++ d.drop (pos.toNat + n) ∧
          d'.length = d.length)) := by
  simp only [sliceCopyAt] at h
  split at h
  · cases h
  · next hc =>
    push_neg at hc
    refine ⟨by omega, by omega, ?_⟩
    split at h
    · injection h with h2
      injection h2 with hn h2
      injection h2 with he hd'
      exact Or.inl ⟨he.symm, hn.symm, hd'.symm⟩
    · injection h with h2
      injection h2 with hn h2
      injection h2 with he hd'
      subst hn
      refine Or.inr ⟨he.symm, rfl, hd'.symm, ?_⟩
      subst hd'
      have hp : pos.toNat ≤ d.length := by omega
      simp [List.length_append, List.length_take, List.length_drop]
      omega

end Yammap

namespace Yammap

theorem mmap_ok (m : Mmap) (c : List Byte) (size : Int)
    (h0 : 0 < size) (hs : size < maxSize) :
    m.mmap c size =
      (none, { (if protWrite m.flag then { m with fileSize := size } else m) with
        data := some (resizeBytes c size.toNat) }) := by
  simp only [Mmap.mmap]
  rw [if_neg (by omega)]
  by_cases hw : protWrite m.flag = true
  · rw [if_pos hw, if_neg (by omega), if_neg (by omega), if_pos hw]
  · rw [if_neg hw, if_neg (by omega), if_neg hw]

theorem mmap_zero (m : Mmap) (c : List Byte) :
    m.mmap c 0 = (some .mapError,
      if protWrite m.flag then { m with fileSize := 0 } else m) := by
  simp only [Mmap.mmap]
  rw [if_neg (by norm_num [maxSize])]
  by_cases hw : protWrite m.flag = true <;> simp [hw]

theorem mremap_too_big (m : Mmap) (size : Int) (hs : maxSize ≤ size) :
    m.mremap size = .ret (some .mapError, m) := by
  simp only [Mmap.mremap]
  rw [if_pos hs]

theorem mremap_zero (m : Mmap) (d : List Byte) (hd : m.data = some d)
    (hw : protWrite m.flag = true) :
    m.mremap 0 = .ret (none, { m with data := none, fileSize := 0 }) := by
  simp only [Mmap.mremap, hd, hw]
  rw [if_neg (by norm_num [maxSize])]
  simp

theorem mremap_pos (m : Mmap) (d : List Byte) (size : Int)
    (hd : m.data = some d) (hw : protWrite m.flag = true)
    (h0 : 0 < size) (hs : size < maxSize) :
    m.mremap size =
      .ret (none,
        { m with data := some (resizeBytes d size.toNat), fileSize := size }) := by
  simp only [Mmap.mremap, hd, hw]
  rw [if_neg (by omega), if_neg (by omega), if_neg (by simp), if_neg (by omega)]

theorem mremap_ro (m : Mmap) (size : Int) (hw : protWrite m.flag = false)
    (hnz : size ≠ 0) (hs : size < maxSize) :
    m.mremap size = .ret (some .ioError, m) := by
  simp only [Mmap.mremap, hw]
  rw [if_neg (by omega), if_neg hnz]
  simp

theorem writeFinish_ret (m : Mmap) (b D : List Byte)
    (hd : m.data = some D) (hw : protWrite m.flag = true) (h0 : 0 ≤ m.offset)
    (h1 : m.offset + (b.length : Int) ≤ (D.length : Int)) :
    m.writeFinish b = .ret (b.length, none,
      { m with
          data := some (D.take m.offset.toNat ++ b ++ D.drop (m.offset.toNat + b.length)),
          offset := m.offset + (b.length : Int) }) := by
  have hn : min b.length (D.length - m.offset.toNat) = b.length := by omega
  simp only [Mmap.writeFinish, hd, Option.getD_some, hw]
  rw [sliceCopyAt_writable_ret D m.offset b h0 (by omega), hn]
  simp [List.take_of_length_le]

end Yammap

namespace Yammap

/-- C7: for whence in {start, current, end}, `Seek` computes the absolute
position, fails with `negativePosition` when it is negative, fails with
`outOfRange` when it exceeds the mapped length, and otherwise commits it as
the new cursor and returns it (`yammap.go` lines 181-203). -/
theorem seek_spec_correct (m : Mmap) (off abs : Int) (w : Nat)
    (habs : (w = SEEK_SET ∧ abs = off) ∨ (w = SEEK_CUR ∧ abs = m.offset + off) ∨
      (w = SEEK_END ∧ abs = m.Size + off)) :
    (abs < 0 → m.Seek off w = (0, some .negativePosition, m)) ∧
    (0 ≤ abs → m.Size < abs → m.Seek off w = (0, some .outOfRange, m)) ∧
    (0 ≤ abs → abs ≤ m.Size → m.Seek off w = (abs, none, { m with offset := abs })) := by
  have hseek : m.Seek off w = m.seekAbs abs := by
    rcases habs with ⟨hw, ha⟩ | ⟨hw, ha⟩ | ⟨hw, ha⟩ <;>
      subst hw <;> subst ha <;>
      simp [Mmap.Seek, SEEK_SET, SEEK_CUR, SEEK_END, Mmap.Size]
  rw [hseek]
  unfold Mmap.seekAbs
  refine ⟨fun h => by rw [if_pos h], fun h0 h1 => ?_, fun h0 h1 => ?_⟩
  · rw [if_neg (by omega), if_pos (by simpa [Mmap.Size] using h1)]
  · rw [if_neg (by omega), if_neg (by simp only [not_lt]; simpa [Mmap.Size] using h1)]

theorem seek_spec_correct_witness :
    Mmap.Seek (Mmap.mk 2 1 (some [9, 9, 9]) false 3) 1 SEEK_CUR =
      (2, none, Mmap.mk 2 2 (some [9, 9, 9]) false 3) :=
  (seek_spec_correct (Mmap.mk 2 1 (some [9, 9, 9]) false 3)
    1 2 SEEK_CUR (by right; left; exact ⟨rfl, by decide⟩)).2.2 (by decide) (by decide)

/-- C8: `WriteAt` on an append-mode handle fails with `invalidOperation`,
writes zero bytes and leaves the whole state (mapping, file, cursor)
unchanged (`yammap.go` lines 242-245: the check precedes everything). -/
theorem writeAt_append_rejected (m : Mmap) (b : List Byte) (off : Int)
    (h : m.append = true) :
    m.WriteAt b off = .ret (0, some .invalidOperation, m) := by
  simp [Mmap.WriteAt, h]

theorem writeAt_append_rejected_witness :
    Mmap.WriteAt (Mmap.mk 1026 0 (some [9, 9]) true 2) [1, 2] 0 =
      .ret (0, some .invalidOperation, Mmap.mk 1026 0 (some [9, 9]) true 2) :=
  writeAt_append_rejected _ [1, 2] 0 rfl

end Yammap

namespace Yammap

/-- C9 (amended): for `off ≥ 0`, `ReadAt` returns normally, never changes any
field of the handle, copies `min(len(b), available)` bytes of
`mappedRegion[off:]` into the buffer, never resizes, and returns `EndOfFile`
exactly when fewer bytes than requested were available or the offset is at or
past the end of the mapping (so a zero-length read at or past the end also
reports `EndOfFile`). -/
theorem readAt_frame_and_eof (m : Mmap) (b : List Byte) (off : Int)
    (hoff : 0 ≤ off) :
    ∃ n b' e, m.ReadAt b off = .ret (n, b', e, m) ∧
      n = min b.length (m.Size - off).toNat ∧
      b' = ((m.data.getD []).drop off.toNat).take n ++ b.drop n ∧
      ((e = some .eof) ↔ (n < b.length ∨ m.Size ≤ off)) := by
  cases hd : m.data with
  | none =>
    refine ⟨0, b, some .eof, ?_⟩
    simp [Mmap.ReadAt, hd, Mmap.Size]
    exact ⟨by omega, Or.inr hoff⟩
  | some d =>
    by_cases hend : (d.length : Int) ≤ off
    · refine ⟨0, b, some .eof, ?_⟩
      have hdrop : d.drop off.toNat = [] := by
        apply List.drop_eq_nil_of_le
        omega
      simp [Mmap.ReadAt, hd, hend, Mmap.Size, hdrop]
      omega
    · push_neg at hend
      refine ⟨min b.length (d.length - off.toNat),
        (d.drop off.toNat).take (min b.length (d.length - off.toNat)) ++
          b.drop (min b.length (d.length - off.toNat)),
        if min b.length (d.length - off.toNat) < b.length then some .eof else none,
        ?_, ?_, ?_, ?_⟩
      · simp only [Mmap.ReadAt, hd]
        rw [if_neg (by omega), if_neg (by omega)]
      · simp [Mmap.Size, hd]
        omega
      · simp [hd]
      · have hsz : ¬ m.Size ≤ off := by
          simp [Mmap.Size, hd]
          omega
        by_cases hlt : min b.length (d.length - off.toNat) < b.length
        · simp [hlt, hsz]
        · simp [hlt, hsz]

theorem readAt_frame_and_eof_witness :
    ∃ n b' e,
      Mmap.ReadAt (Mmap.mk 2 0 (some [7, 8, 9]) false 3) [0, 0] 1 =
        .ret (n, b', e, Mmap.mk 2 0 (some [7, 8, 9]) false 3) ∧
      n = min ([0, 0] : List Byte).length
        ((Mmap.Size (Mmap.mk 2 0 (some [7, 8, 9]) false 3) - 1).toNat) ∧
      b' = (((Mmap.mk 2 0 (some [7, 8, 9]) false 3).data.getD []).drop
          (Int.toNat 1)).take n ++ ([0, 0] : List Byte).drop n ∧
      ((e = some .eof) ↔ (n < ([0, 0] : List Byte).length ∨
        Mmap.Size (Mmap.mk 2 0 (some [7, 8, 9]) false 3) ≤ 1)) :=
  readAt_frame_and_eof (Mmap.mk 2 0 (some [7, 8, 9]) false 3) [0, 0] 1 (by decide)

/-- C9 counterexample: with a mapping of length 2 and a zero-length buffer at
offset 2, nothing was requested and nothing was missing, yet `ReadAt`
returns `io.EOF` — refuting "returns EndOfFile exactly when fewer bytes were
available than requested". -/
theorem readAt_eof_iff_refuted :
    Mmap.ReadAt (Mmap.mk 2 0 (some [7, 8]) false 2) [] 2 =
      .ret (0, [], some .eof, Mmap.mk 2 0 (some [7, 8]) false 2) ∧
    ¬ (0 < ([] : List Byte).length) := by
  decide

end Yammap

namespace Yammap

theorem mmap_too_big (m : Mmap) (c : List Byte) (size : Int)
    (hs : maxSize ≤ size) : m.mmap c size = (some .mapError, m) := by
  simp only [Mmap.mmap]
  rw [if_pos hs]

theorem goReturns {α : Type} (x : GoResult α) (h : x ≠ .panic) :
    ∃ r, x = .ret r := by
  cases x with
  | ret r => exact ⟨r, rfl⟩
  | panic => exact absurd rfl h

theorem writeAtFinish_ret_of (m : Mmap) (b : List Byte) (off : Int)
    (h0 : 0 ≤ off) (h1 : off ≤ ((m.data.getD []).length : Int)) :
    ∃ r, m.writeAtFinish b off = .ret r := by
  obtain ⟨⟨n, e, d'⟩, hr⟩ :=
    sliceCopyAt_ret_of_inbounds (protWrite m.flag) (m.data.getD []) off b h0 h1
  cases e with
  | none =>
    have h : m.writeAtFinish b off =
        .ret (n, if n = b.length then none else some .shortWrite,
          { m with data := m.data.map (fun _ => d') }) := by
      simp only [Mmap.writeAtFinish, hr]
    exact ⟨_, h⟩
  | some err =>
    have h : m.writeAtFinish b off = .ret (n, some err, m) := by
      simp only [Mmap.writeAtFinish, hr]
    exact ⟨_, h⟩

theorem writeAtFinish_ne_panic (m : Mmap) (b : List Byte) (off : Int)
    (h0 : 0 ≤ off) (h1 : off ≤ ((m.data.getD []).length : Int)) :
    m.writeAtFinish b off ≠ .panic := by
  obtain ⟨r, hr⟩ := writeAtFinish_ret_of m b off h0 h1
  rw [hr]
  simp

/-- C10 (amended): `ReadAt` and `WriteAt` validate the offset only against the
upper bound.  `ReadAt` returns normally for every `off ≥ 0`.  `WriteAt`
returns normally for every `off ≥ 0` when there is no mapping, and, when a
mapping of length `L` exists, whenever `off ≤ L + len(b)` — but not beyond:
the resize only grows the region to `L + len(b)`, so a larger non-negative
offset panics after the resize (see the counterexample).  For negative
offsets with a non-empty mapping the slicing panics outside the
recover-protected `safeCopy`, so no error value is returned. -/
theorem offset_validation_partial :
    (∀ (m : Mmap) (b : List Byte) (off : Int), 0 ≤ off →
      ∃ r, m.ReadAt b off = .ret r) ∧
    (∀ (m : Mmap) (b : List Byte) (off : Int), 0 ≤ off → m.data = none →
      ∃ r, m.WriteAt b off = .ret r) ∧
    (∀ (m : Mmap) (b d : List Byte) (off : Int), 0 ≤ off → m.data = some d →
      off ≤ (d.length : Int) + (b.length : Int) →
      ∃ r, m.WriteAt b off = .ret r) ∧
    Mmap.ReadAt (Mmap.mk 2 0 (some [9, 9]) false 2) [0] (-1) = .panic ∧
    Mmap.WriteAt (Mmap.mk 2 0 (some [9, 9]) false 2) [1] (-1) = .panic := by
  refine ⟨?_, ?_, ?_, by decide, by decide⟩
  · intro m b off hoff
    apply goReturns
    intro hc
    cases hd : m.data with
    | none => simp [Mmap.ReadAt, hd] at hc
    | some d =>
      by_cases hend : (d.length : Int) ≤ off
      · simp only [Mmap.ReadAt, hd] at hc
        rw [if_pos hend] at hc
        exact GoResult.noConfusion hc
      · simp only [Mmap.ReadAt, hd] at hc
        rw [if_neg hend, if_neg (by omega)] at hc
        exact GoResult.noConfusion hc
  · intro m b off hoff hd
    apply goReturns
    intro hc
    cases happ : m.append with
    | true => simp [Mmap.WriteAt, happ] at hc
    | false =>
      by_cases hbig : maxSize ≤ off + (b.length : Int)
      · simp [Mmap.WriteAt, happ, hd,
          mmap_too_big m [] (off + (b.length : Int)) hbig] at hc
      · by_cases hz : off + (b.length : Int) = 0
        · simp [Mmap.WriteAt, happ, hd, hz, mmap_zero] at hc
        · have hok := mmap_ok m [] (off + (b.length : Int)) (by omega) (by omega)
          simp only [Mmap.WriteAt, happ, hd, hok, Bool.false_eq_true,
            if_false] at hc
          refine writeAtFinish_ne_panic _ b off hoff ?_ hc
          simp [resizeBytes_length]
  · intro m b d off hoff hd hub
    apply goReturns
    intro hc
    cases happ : m.append with
    | true => simp [Mmap.WriteAt, happ] at hc
    | false =>
      by_cases hgrow : (d.length : Int) < off + (b.length : Int)
      · by_cases hbig : maxSize ≤ (d.length : Int) + (b.length : Int)
        · simp only [Mmap.WriteAt, happ, hd, Bool.false_eq_true, if_false] at hc
          rw [if_pos hgrow, mremap_too_big m _ hbig] at hc
          exact GoResult.noConfusion hc
        · have hpos : 0 < (d.length : Int) + (b.length : Int) := by omega
          by_cases hw : protWrite m.flag = true
          · have hrem := mremap_pos m d ((d.length : Int) + (b.length : Int))
              hd hw hpos (by omega)
            simp only [Mmap.WriteAt, happ, hd, Bool.false_eq_true,
              if_false] at hc
            rw [if_pos hgrow, hrem] at hc
            refine writeAtFinish_ne_panic _ b off hoff ?_ hc
            simp [resizeBytes_length]
            omega
          · have hw' : protWrite m.flag = false := by
              cases hx : protWrite m.flag
              · rfl
              · exact absurd hx hw
            have hrem := mremap_ro m ((d.length : Int) + (b.length : Int)) hw'
              (by omega) (by omega)
            simp only [Mmap.WriteAt, happ, hd, Bool.false_eq_true,
              if_false] at hc
            rw [if_pos hgrow, hrem] at hc
            exact GoResult.noConfusion hc
      · simp only [Mmap.WriteAt, happ, hd, Bool.false_eq_true, if_false] at hc
        rw [if_neg hgrow] at hc
        refine writeAtFinish_ne_panic m b off hoff ?_ hc
        simp [hd]
        omega

theorem offset_validation_partial_witness :
    ∃ r, Mmap.WriteAt (Mmap.mk 2 0 (some [9, 9]) false 2) [1, 1, 1] 4 = .ret r :=
  offset_validation_partial.2.2.1 (Mmap.mk 2 0 (some [9, 9]) false 2) [1, 1, 1]
    [9, 9] 4 (by decide) rfl (by decide)

/-- C10 counterexample: `WriteAt` at the non-negative offset 10 on a length-2
mapping with a 1-byte buffer grows the region only to 3 bytes and then the
slice expression `m.Data[10:]` panics — so `WriteAt` does not return normally
for every non-negative offset. -/
theorem writeAt_nonneg_offset_panic_refuted :
    Mmap.WriteAt (Mmap.mk 2 0 (some [9, 9]) false 2) [1] 10 = .panic ∧
    (0 : Int) ≤ 10 := by
  decide

end Yammap

namespace Yammap

theorem mremap_state (m : Mmap) (d : List Byte) (size : Int)
    (hd : m.data = some d) (hw : protWrite m.flag = true)
    (h0 : 0 < size) (hs : size < maxSize) :
    ∃ m1, m.mremap size = .ret (none, m1) ∧
      m1.data = some (resizeBytes d size.toNat) ∧
      m1.offset = m.offset ∧ m1.append = m.append ∧ m1.fileSize = size ∧
      m1.flag = m.flag := by
  rw [mremap_pos m d size hd hw h0 hs]
  exact ⟨_, rfl, rfl, rfl, rfl, rfl, rfl⟩

end Yammap

namespace Yammap

end Yammap

namespace Yammap

end Yammap

namespace Yammap

end Yammap

namespace Yammap

theorem writeFinish_size (m : Mmap) (b D : List Byte) (hd : m.data = some D)
    (hw : protWrite m.flag = true) (h0 : 0 ≤ m.offset)
    (h1 : m.offset + (b.length : Int) ≤ (D.length : Int)) :
    ∃ m', m.writeFinish b = .ret (b.length, none, m') ∧
      m'.Size = (D.length : Int) ∧ m'.fileSize = m.fileSize ∧
      m'.offset = m.offset + (b.length : Int) := by
  rw [writeFinish_ret m b D hd hw h0 h1]
  refine ⟨_, rfl, ?_, rfl, rfl⟩
  simp [Mmap.Size]
  omega

/-- C2 (amended): a `Write` whose effective cursor (the cursor, or the mapped
length in append mode) plus `len(b)` exceeds the mapped length `L` performs
exactly one remap — to `L + len(b)`, the old length plus the buffer length —
and on success `Size()` and the backing file length equal `L + len(b)`.
No page-size rounding is applied.  The handle must be open for writing, or
the resize fails at `ftruncate` instead. -/
theorem write_extend_resize_size (m : Mmap) (d b : List Byte)
    (hd : m.data = some d) (hw : protWrite m.flag = true)
    (hgrow : (d.length : Int) <
      (if m.append then (d.length : Int) else m.offset) + (b.length : Int))
    (hc0 : 0 ≤ (if m.append then (d.length : Int) else m.offset))
    (hc1 : (if m.append then (d.length : Int) else m.offset) ≤ (d.length : Int))
    (hsz : (d.length : Int) + (b.length : Int) < maxSize) :
    ∃ m', m.Write b = .ret (b.length, none, m') ∧
      m'.Size = (d.length : Int) + (b.length : Int) ∧
      m'.fileSize = (d.length : Int) + (b.length : Int) := by
  cases happ : m.append with
  | false =>
    rw [happ] at hgrow hc0 hc1
    simp only [Bool.false_eq_true, if_false] at hgrow hc0 hc1
    obtain ⟨m2, hrem, hd2, ho2, -, hf2, hfl2⟩ := mremap_state m d
      ((d.length : Int) + (b.length : Int)) hd hw (by omega) hsz
    have hD : ((resizeBytes d ((d.length : Int) + (b.length : Int)).toNat).length
        : Int) = (d.length : Int) + (b.length : Int) := by
      rw [resizeBytes_length]
      omega
    obtain ⟨m3, hfin, hS, hF, -⟩ := writeFinish_size m2 b _ hd2
      (by rw [hfl2]; exact hw)
      (by rw [ho2]; exact hc0) (by rw [ho2, hD]; omega)
    refine ⟨m3, ?_, ?_, ?_⟩
    · simp only [Mmap.Write, hd, happ, Bool.false_eq_true, if_false]
      rw [if_pos hgrow, hrem]
      exact hfin
    · rw [hS, hD]
    · rw [hF, hf2]
  | true =>
    rw [happ] at hgrow hc0 hc1
    simp only [if_true] at hgrow hc0 hc1
    have hb : 0 < b.length := by omega
    obtain ⟨m2, hrem, hd2, ho2, -, hf2, hfl2⟩ := mremap_state
      { m with offset := (d.length : Int) } d
      ((d.length : Int) + (b.length : Int)) hd hw (by omega) hsz
    have hD : ((resizeBytes d ((d.length : Int) + (b.length : Int)).toNat).length
        : Int) = (d.length : Int) + (b.length : Int) := by
      rw [resizeBytes_length]
      omega
    obtain ⟨m3, hfin, hS, hF, -⟩ := writeFinish_size m2 b _ hd2
      (by rw [hfl2]; exact hw)
      (by simp [ho2]) (by simp [ho2, hD])
    rw [hd, happ] at hrem
    refine ⟨m3, ?_, ?_, ?_⟩
    · simp only [Mmap.Write, hd, happ, if_true]
      rw [if_pos (show (d.length : Int) <
          (({ m with offset := (d.length : Int) } : Mmap)).offset +
            (b.length : Int) by simp; omega), hrem]
      exact hfin
    · rw [hS, hD]
    · rw [hF, hf2]

end Yammap

namespace Yammap

theorem write_extend_resize_size_witness :
    ∃ m', Mmap.Write (Mmap.mk 2 0 (some [9, 9]) false 2) [1, 1, 1] =
        .ret (([1, 1, 1] : List Byte).length, none, m') ∧
      m'.Size = (([9, 9] : List Byte).length : Int) +
        (([1, 1, 1] : List Byte).length : Int) ∧
      m'.fileSize = (([9, 9] : List Byte).length : Int) +
        (([1, 1, 1] : List Byte).length : Int) :=
  write_extend_resize_size (Mmap.mk 2 0 (some [9, 9]) false 2) [9, 9] [1, 1, 1]
    rfl (by decide) (by decide) (by decide) (by decide) (by decide)

/-- C2 counterexample: on a mapping of length 2 with cursor 0, writing 3
bytes requires length 3, whose page-aligned ceiling is 4096 — but the code
resizes to `len(Data) + len(b)` = 5 with no alignment, so `Size()` is 5. -/
theorem write_extend_aligned_size_refuted :
    Mmap.Write (Mmap.mk 2 0 (some [9, 9]) false 2) [1, 1, 1] =
      .ret (3, none, Mmap.mk 2 3 (some [1, 1, 1, 0, 0]) false 5) ∧
    Mmap.Size (Mmap.mk 2 3 (some [1, 1, 1, 0, 0]) false 5) = 5 ∧
    alignSpec (0 + 3) = 4096 ∧ (5 : Int) ≠ 4096 := by
  decide

/-- C5 (amended): a successful `Truncate(n)` (mapped handle, `0 ≤ n` below
the architecture bound) makes `Size()` exactly `n` — no page alignment — and
truncates the backing file to `n`; when `n = 0` the region is fully unmapped
(nil mapping).  The cursor is untouched.  The handle must be open for
writing, or the internal `ftruncate` fails instead. -/
theorem truncate_sets_exact_size (m : Mmap) (d : List Byte) (sz : Int)
    (hd : m.data = some d) (hw : protWrite m.flag = true)
    (h0 : 0 ≤ sz) (hs : sz < maxSize) :
    ∃ m', m.Truncate sz = .ret (none, m') ∧ m'.Size = sz ∧ m'.fileSize = sz ∧
      m'.offset = m.offset ∧ (sz = 0 → m'.data = none) := by
  rcases eq_or_lt_of_le h0 with h | h
  · refine ⟨{ m with data := none, fileSize := 0 }, ?_, ?_, ?_, rfl, fun _ => rfl⟩
    · simp only [Mmap.Truncate]
      rw [← h]
      exact mremap_zero m d hd hw
    · simp [Mmap.Size]
      omega
    · exact h
  · obtain ⟨m1, hrem, hd1, ho1, -, hf1, -⟩ := mremap_state m d sz hd hw h hs
    refine ⟨m1, ?_, ?_, hf1, ho1, fun h0' => absurd h0' (by omega)⟩
    · simp only [Mmap.Truncate]
      exact hrem
    · simp [Mmap.Size, hd1, resizeBytes_length]
      omega

theorem truncate_sets_exact_size_witness :
    ∃ m', Mmap.Truncate (Mmap.mk 2 0 (some [9, 9, 9]) false 3) 1 =
        .ret (none, m') ∧ m'.Size = 1 ∧ m'.fileSize = 1 ∧
      m'.offset = (Mmap.mk 2 0 (some [9, 9, 9]) false 3).offset ∧
      ((1 : Int) = 0 → m'.data = none) :=
  truncate_sets_exact_size (Mmap.mk 2 0 (some [9, 9, 9]) false 3) [9, 9, 9] 1
    rfl (by decide) (by decide) (by decide)

/-- C5 counterexample: `Truncate(1)` then `Size()` gives exactly 1, not the
page-aligned `align(1) = 4096`. -/
theorem truncate_align_refuted :
    Mmap.Truncate (Mmap.mk 2 0 (some [9, 9, 9, 9]) false 4) 1 =
      .ret (none, Mmap.mk 2 0 (some [9]) false 1) ∧
    Mmap.Size (Mmap.mk 2 0 (some [9]) false 1) = 1 ∧
    alignSpec 1 = 4096 ∧ (1 : Int) ≠ 4096 := by
  decide

end Yammap

namespace Yammap

/-- C4 (amended): whenever the size an operation requests reaches the
architecture bound (`size >= maxSize`, which covers the claim's
"exceeds maxSize"), the operation fails with the map error and the size is
not clamped; the mapping, cursor and file are left unchanged — except that a
failing append-mode `Write` has already forced the cursor to the end of the
mapping before the size check (see the counterexample).  For `Write`/`WriteAt`
on a mapped handle the requested size is `len(Data) + len(b)`; for an
unmapped handle it is `len(b)` resp. `off + len(b)`; for `Create`/`Truncate`
it is the argument itself. -/
theorem oversize_fails_mapError :
    (∀ (size : Int) (flag : Nat), maxSize ≤ size →
      Create size flag = .error .mapError) ∧
    (∀ (m : Mmap) (size : Int), maxSize ≤ size →
      m.Truncate size = .ret (some .mapError, m)) ∧
    (∀ (m : Mmap) (b : List Byte) (off : Int), m.append = false →
      m.data = none → maxSize ≤ off + (b.length : Int) →
      m.WriteAt b off = .ret (0, some .mapError, m)) ∧
    (∀ (m : Mmap) (d b : List Byte) (off : Int), m.append = false →
      m.data = some d → maxSize ≤ (d.length : Int) + (b.length : Int) →
      (d.length : Int) < off + (b.length : Int) →
      m.WriteAt b off = .ret (0, some .mapError, m)) ∧
    (∀ (m : Mmap) (b : List Byte), m.data = none → maxSize ≤ (b.length : Int) →
      m.Write b = .ret (0, some .mapError, m)) ∧
    (∀ (m : Mmap) (d b : List Byte), m.data = some d →
      maxSize ≤ (d.length : Int) + (b.length : Int) →
      (d.length : Int) <
        (if m.append then (d.length : Int) else m.offset) + (b.length : Int) →
      m.Write b = .ret (0, some .mapError,
        if m.append then { m with offset := (d.length : Int) } else m)) := by
  refine ⟨?_, ?_, ?_, ?_, ?_, ?_⟩
  · intro size flag hs
    simp only [Create, mmap_too_big _ [] size hs]
  · intro m size hs
    simp only [Mmap.Truncate]
    exact mremap_too_big m size hs
  · intro m b off happ hd hs
    simp only [Mmap.WriteAt, happ, Bool.false_eq_true, if_false, hd,
      mmap_too_big m [] (off + (b.length : Int)) hs]
  · intro m d b off happ hd hs hgrow
    simp only [Mmap.WriteAt, happ, Bool.false_eq_true, if_false, hd]
    rw [if_pos hgrow, mremap_too_big m _ hs]
  · intro m b hd hs
    simp only [Mmap.Write, hd, mmap_too_big m [] (b.length : Int) hs]
  · intro m d b hd hs hgrow
    cases happ : m.append with
    | false =>
      rw [happ] at hgrow
      simp only [Bool.false_eq_true, if_false] at hgrow ⊢
      simp only [Mmap.Write, hd, happ, Bool.false_eq_true, if_false]
      rw [if_pos hgrow, mremap_too_big m _ hs]
    | true =>
      rw [happ] at hgrow
      simp only [if_true] at hgrow ⊢
      simp only [Mmap.Write, hd, happ, if_true]
      rw [if_pos (show (d.length : Int) <
          (({ m with offset := (d.length : Int) } : Mmap)).offset +
            (b.length : Int) by simpa using hgrow),
        mremap_too_big _ _ hs]

theorem oversize_fails_mapError_witness :
    Mmap.Truncate (Mmap.mk 2 0 (some [9, 9]) false 2) (2 ^ 47) =
      .ret (some .mapError, Mmap.mk 2 0 (some [9, 9]) false 2) :=
  oversize_fails_mapError.2.1 (Mmap.mk 2 0 (some [9, 9]) false 2) (2 ^ 47)
    (by norm_num [maxSize])

theorem write_append_fail_moves_cursor (b : List Byte)
    (hb : maxSize ≤ 2 + (b.length : Int)) :
    Mmap.Write (Mmap.mk 1026 0 (some [9, 9]) true 2) b =
      .ret (0, some .mapError, Mmap.mk 1026 2 (some [9, 9]) true 2) := by
  simp [Mmap.Write, Mmap.mremap, hb]
  intro h
  subst h
  norm_num [maxSize] at hb

/-- C4 counterexample: an append-mode handle with cursor 0 and a 2-byte
mapping; a `Write` whose requested size reaches `maxSize` fails with the map
error, but the cursor has already been forced to 2 (end of mapping), so the
state is not left unchanged. -/
theorem oversize_state_unchanged_refuted :
    Mmap.Write (Mmap.mk 1026 0 (some [9, 9]) true 2)
        (List.replicate (2 ^ 47) 0) =
      .ret (0, some .mapError, Mmap.mk 1026 2 (some [9, 9]) true 2) ∧
    Mmap.mk 1026 2 (some [9, 9]) true 2 ≠ Mmap.mk 1026 0 (some [9, 9]) true 2 := by
  refine ⟨write_append_fail_moves_cursor _ ?_, by decide⟩
  rw [List.length_replicate]
  norm_num [maxSize]

end Yammap

namespace Yammap

theorem writeFinish_success_bounds (m : Mmap) (b : List Byte) (n : Nat)
    (m' : Mmap) (h : m.writeFinish b = .ret (n, none, m')) :
    0 ≤ m'.offset ∧ m'.offset ≤ m'.Size := by
  unfold Mmap.writeFinish at h
  cases hsc : sliceCopyAt (protWrite m.flag) (m.data.getD []) m.offset b with
  | panic =>
    rw [hsc] at h
    simp at h
  | ret nd =>
    obtain ⟨n0, e0, d'⟩ := nd
    rw [hsc] at h
    obtain ⟨h0, h1, hcase⟩ := sliceCopyAt_inv _ _ _ _ _ _ _ hsc
    cases e0 with
    | some err => simp at h
    | none =>
      rcases hcase with ⟨hfe, -, -⟩ | ⟨-, hn0, -, hlen⟩
      · cases hfe
      · simp only [GoResult.ret.injEq, Prod.mk.injEq] at h
        obtain ⟨-, herr, hm⟩ := h
        have hnb : n0 = b.length := by
          by_cases hx : n0 = b.length
          · exact hx
          · simp [hx] at herr
        subst hm
        cases hd : m.data with
        | none =>
          rw [hd] at h1 hn0
          simp only [Option.getD_none, List.length_nil] at h1 hn0
          constructor
          · simp
            omega
          · simp [Mmap.Size]
            omega
        | some D =>
          rw [hd] at h1 hn0 hlen
          simp only [Option.getD_some] at h1 hn0 hlen
          constructor
          · simp
            omega
          · simp [Mmap.Size, hlen]
            omega

theorem writeAtFinish_inv (m : Mmap) (b : List Byte) (off : Int) (n : Nat)
    (e : Option Err) (m' : Mmap) (h : m.writeAtFinish b off = .ret (n, e, m')) :
    m'.offset = m.offset ∧ m'.Size = m.Size := by
  unfold Mmap.writeAtFinish at h
  cases hsc : sliceCopyAt (protWrite m.flag) (m.data.getD []) off b with
  | panic =>
    rw [hsc] at h
    simp at h
  | ret nd =>
    obtain ⟨n0, e0, d'⟩ := nd
    rw [hsc] at h
    obtain ⟨-, -, hcase⟩ := sliceCopyAt_inv _ _ _ _ _ _ _ hsc
    cases e0 with
    | some err =>
      simp only [GoResult.ret.injEq, Prod.mk.injEq] at h
      obtain ⟨-, -, hm⟩ := h
      subst hm
      exact ⟨rfl, rfl⟩
    | none =>
      rcases hcase with ⟨hfe, -, -⟩ | ⟨-, -, -, hlen⟩
      · cases hfe
      · simp only [GoResult.ret.injEq, Prod.mk.injEq] at h
        obtain ⟨-, -, hm⟩ := h
        subst hm
        refine ⟨rfl, ?_⟩
        cases hd : m.data with
        | none => simp [Mmap.Size, hd]
        | some D =>
          rw [hd] at hlen
          simp only [Option.getD_some] at hlen
          simp [Mmap.Size, hd, hlen]

theorem mmap_inv (m : Mmap) (c : List Byte) (size : Int) (m1 : Mmap)
    (h : m.mmap c size = (none, m1)) :
    m1.offset = m.offset ∧ m1.data = some (resizeBytes c size.toNat) ∧
      0 ≤ size ∧ size < maxSize := by
  unfold Mmap.mmap at h
  split at h
  · simp at h
  · split at h
    · split at h
      · simp at h
      · split at h
        · simp at h
        · simp only [Prod.mk.injEq] at h
          obtain ⟨-, hm⟩ := h
          subst hm
          exact ⟨rfl, rfl, by omega, by omega⟩
    · split at h
      · simp at h
      · simp only [Prod.mk.injEq] at h
        obtain ⟨-, hm⟩ := h
        subst hm
        exact ⟨rfl, rfl, by omega, by omega⟩

theorem mremap_none_inv (m : Mmap) (size : Int) (m1 : Mmap)
    (h : m.mremap size = .ret (none, m1)) :
    m1.offset = m.offset ∧ m1.Size = size ∧ m1.fileSize = size := by
  unfold Mmap.mremap at h
  split at h
  · simp at h
  · split at h
    · next hz =>
      split at h
      · simp at h
      · split at h
        · simp only [GoResult.ret.injEq, Prod.mk.injEq] at h
          obtain ⟨-, hm⟩ := h
          subst hm
          refine ⟨rfl, ?_, by rw [hz]⟩
          simp [Mmap.Size]
          omega
        · simp at h
    · split at h
      · simp at h
      · split at h
        · simp at h
        · split at h
          · simp at h
          · simp only [GoResult.ret.injEq, Prod.mk.injEq] at h
            obtain ⟨-, hm⟩ := h
            subst hm
            refine ⟨rfl, ?_, rfl⟩
            simp [Mmap.Size, resizeBytes_length]
            omega

theorem mremap_ret_offset (m : Mmap) (size : Int) (e : Option Err) (m1 : Mmap)
    (h : m.mremap size = .ret (e, m1)) : m1.offset = m.offset := by
  unfold Mmap.mremap at h
  split at h
  · simp only [GoResult.ret.injEq, Prod.mk.injEq] at h
    obtain ⟨-, hm⟩ := h
    subst hm
    rfl
  · split at h
    · split at h
      · simp at h
      · split at h
        · simp only [GoResult.ret.injEq, Prod.mk.injEq] at h
          obtain ⟨-, hm⟩ := h
          subst hm
          rfl
        · simp only [GoResult.ret.injEq, Prod.mk.injEq] at h
          obtain ⟨-, hm⟩ := h
          subst hm
          rfl
    · split at h
      · simp only [GoResult.ret.injEq, Prod.mk.injEq] at h
        obtain ⟨-, hm⟩ := h
        subst hm
        rfl
      · split at h
        · simp only [GoResult.ret.injEq, Prod.mk.injEq] at h
          obtain ⟨-, hm⟩ := h
          subst hm
          rfl
        · split at h
          · simp only [GoResult.ret.injEq, Prod.mk.injEq] at h
            obtain ⟨-, hm⟩ := h
            subst hm
            rfl
          · simp only [GoResult.ret.injEq, Prod.mk.injEq] at h
            obtain ⟨-, hm⟩ := h
            subst hm
            rfl

theorem seekAbs_success (m : Mmap) (abs p : Int) (m' : Mmap)
    (h : m.seekAbs abs = (p, none, m')) :
    0 ≤ m'.offset ∧ m'.offset ≤ m'.Size := by
  unfold Mmap.seekAbs at h
  split at h
  · simp at h
  · split at h
    · simp at h
    · next hneg hout =>
      simp only [Prod.mk.injEq] at h
      obtain ⟨-, -, hm⟩ := h
      subst hm
      constructor
      · simp
        omega
      · simp [Mmap.Size]
        omega

end Yammap

namespace Yammap

/-- C6 (amended): after every successful `Read`, `Write`, `WriteAt` (the
latter from a state already satisfying the bound) and `Seek`, the cursor
satisfies `0 ≤ cursor ≤ len(Data)`; `Truncate` never moves the cursor, so a
shrinking `Truncate` can leave `cursor > len(Data)` (see the
counterexample). -/
theorem cursor_bounds_after_ops :
    (∀ (m : Mmap) (b : List Byte) (n : Nat) (b' : List Byte) (m' : Mmap),
      m.Read b = .ret (n, b', none, m') → 0 ≤ m'.offset ∧ m'.offset ≤ m'.Size) ∧
    (∀ (m : Mmap) (b : List Byte) (n : Nat) (m' : Mmap),
      m.Write b = .ret (n, none, m') → 0 ≤ m'.offset ∧ m'.offset ≤ m'.Size) ∧
    (∀ (m : Mmap) (b : List Byte) (off : Int) (n : Nat) (m' : Mmap),
      0 ≤ m.offset → m.offset ≤ m.Size →
      m.WriteAt b off = .ret (n, none, m') →
      0 ≤ m'.offset ∧ m'.offset ≤ m'.Size) ∧
    (∀ (m : Mmap) (off : Int) (w : Nat) (p : Int) (m' : Mmap),
      m.Seek off w = (p, none, m') → 0 ≤ m'.offset ∧ m'.offset ≤ m'.Size) ∧
    (∀ (m : Mmap) (sz : Int) (e : Option Err) (m' : Mmap),
      m.Truncate sz = .ret (e, m') → m'.offset = m.offset) := by
  refine ⟨?_, ?_, ?_, ?_, ?_⟩
  · intro m b n b' m' h
    cases hd : m.data with
    | none => simp [Mmap.Read, hd] at h
    | some d =>
      simp only [Mmap.Read, hd] at h
      split at h
      · simp at h
      · split at h
        · simp at h
        · next hc1 hc2 =>
          simp only [GoResult.ret.injEq, Prod.mk.injEq] at h
          obtain ⟨hn, -, -, hm⟩ := h
          subst hm
          constructor
          · simp
            omega
          · simp [Mmap.Size, hd]
            omega
  · intro m b n m' h
    cases hd : m.data with
    | none =>
      rcases hmm : m.mmap [] (b.length : Int) with ⟨e1, m1⟩
      simp only [Mmap.Write, hd, hmm] at h
      cases e1 with
      | some e => simp at h
      | none => exact writeFinish_success_bounds m1 b n m' h
    | some d =>
      cases happ : m.append with
      | false =>
        simp only [Mmap.Write, hd, happ, Bool.false_eq_true, if_false] at h
        split at h
        · split at h
          · simp at h
          · simp at h
          · exact writeFinish_success_bounds _ b n m' h
        · exact writeFinish_success_bounds m b n m' h
      | true =>
        simp only [Mmap.Write, hd, happ, if_true] at h
        split at h
        · split at h
          · simp at h
          · simp at h
          · exact writeFinish_success_bounds _ b n m' h
        · exact writeFinish_success_bounds _ b n m' h
  · intro m b off n m' h0 h1 h
    cases happ : m.append with
    | true => simp [Mmap.WriteAt, happ] at h
    | false =>
      cases hd : m.data with
      | none =>
        rcases hmm : m.mmap [] (off + (b.length : Int)) with ⟨e1, m1⟩
        simp only [Mmap.WriteAt, happ, Bool.false_eq_true, if_false, hd,
          hmm] at h
        cases e1 with
        | some e => simp at h
        | none =>
          obtain ⟨hoEq, hsEq⟩ := writeAtFinish_inv m1 b off n none m' h
          obtain ⟨ho1, hd1, -, -⟩ := mmap_inv m [] _ m1 hmm
          have hs0 : m.Size = 0 := by simp [Mmap.Size, hd]
          rw [hs0] at h1
          have hpos : (0 : Int) ≤ m1.Size := by
            simp [Mmap.Size]
          constructor
          · rw [hoEq, ho1]
            omega
          · rw [hoEq, ho1, hsEq]
            omega
      | some d =>
        simp only [Mmap.WriteAt, happ, Bool.false_eq_true, if_false, hd] at h
        have hsd : m.Size = (d.length : Int) := by simp [Mmap.Size, hd]
        rw [hsd] at h1
        split at h
        · split at h
          · simp at h
          · simp at h
          · next m2 heq =>
            obtain ⟨hoEq, hsEq⟩ := writeAtFinish_inv m2 b off n none m' h
            obtain ⟨ho2, hs2, -⟩ := mremap_none_inv m _ m2 heq
            constructor
            · rw [hoEq, ho2]
              omega
            · rw [hoEq, ho2, hsEq, hs2]
              omega
        · obtain ⟨hoEq, hsEq⟩ := writeAtFinish_inv m b off n none m' h
          rw [hoEq, hsEq, hsd]
          exact ⟨h0, h1⟩
  · intro m off w p m' h
    simp only [Mmap.Seek] at h
    split at h
    · exact seekAbs_success m _ p m' h
    · split at h
      · exact seekAbs_success m _ p m' h
      · split at h
        · exact seekAbs_success m _ p m' h
        · simp at h
  · intro m sz e m' h
    simp only [Mmap.Truncate] at h
    exact mremap_ret_offset m sz e m' h

theorem cursor_bounds_after_ops_witness :
    0 ≤ (Mmap.mk 2 2 (some [9, 9, 9]) false 3).offset ∧
      (Mmap.mk 2 2 (some [9, 9, 9]) false 3).offset ≤
        (Mmap.mk 2 2 (some [9, 9, 9]) false 3).Size :=
  cursor_bounds_after_ops.2.2.2.1 (Mmap.mk 2 1 (some [9, 9, 9]) false 3) 1
    SEEK_CUR 2 (Mmap.mk 2 2 (some [9, 9, 9]) false 3) (by decide)

/-- C6 counterexample: open a 4-byte file, `Seek` to 3, then a successful
`Truncate(1)` leaves the cursor at 3 while the mapped length is 1 — after a
successful public operation the cursor exceeds the mapped length. -/
theorem cursor_bound_truncate_refuted :
    OpenFile [9, 9, 9, 9] 2 =
      .ok (Mmap.mk 2 0 (some [9, 9, 9, 9]) false 4) ∧
    Mmap.Seek (Mmap.mk 2 0 (some [9, 9, 9, 9]) false 4) 3 SEEK_SET =
      (3, none, Mmap.mk 2 3 (some [9, 9, 9, 9]) false 4) ∧
    Mmap.Truncate (Mmap.mk 2 3 (some [9, 9, 9, 9]) false 4) 1 =
      .ret (none, Mmap.mk 2 3 (some [9]) false 1) ∧
    ¬ ((Mmap.mk 2 3 (some [9]) false 1).offset ≤
        (Mmap.mk 2 3 (some [9]) false 1).Size) :=
  ⟨by rfl, by decide, by decide, by decide⟩

end Yammap

namespace Yammap

theorem writeFinish_inv (m : Mmap) (b : List Byte) (n : Nat) (e : Option Err)
    (m' : Mmap) (h : m.writeFinish b = .ret (n, e, m')) : m'.Size = m.Size := by
  unfold Mmap.writeFinish at h
  cases hsc : sliceCopyAt (protWrite m.flag) (m.data.getD []) m.offset b with
  | panic =>
    rw [hsc] at h
    simp at h
  | ret nd =>
    obtain ⟨n0, e0, d'⟩ := nd
    rw [hsc] at h
    obtain ⟨-, -, hcase⟩ := sliceCopyAt_inv _ _ _ _ _ _ _ hsc
    cases e0 with
    | some err =>
      simp only [GoResult.ret.injEq, Prod.mk.injEq] at h
      obtain ⟨-, -, hm⟩ := h
      subst hm
      rfl
    | none =>
      rcases hcase with ⟨hfe, -, -⟩ | ⟨-, -, -, hlen⟩
      · cases hfe
      · simp only [GoResult.ret.injEq, Prod.mk.injEq] at h
        obtain ⟨-, -, hm⟩ := h
        subst hm
        cases hd : m.data with
        | none => simp [Mmap.Size, hd]
        | some D =>
          rw [hd] at hlen
          simp only [Option.getD_some] at hlen
          simp [Mmap.Size, hd, hlen]

theorem maxSize_pos : (0 : Int) < maxSize := by
  norm_num [maxSize]

theorem mmap_pair_size (m : Mmap) (c : List Byte) (size : Int) (e : Option Err)
    (m1 : Mmap) (h : m.mmap c size = (e, m1)) (hm : m.Size < maxSize) :
    m1.Size < maxSize := by
  unfold Mmap.mmap at h
  split at h
  · simp only [Prod.mk.injEq] at h
    obtain ⟨-, hm1⟩ := h
    subst hm1
    exact hm
  · split at h
    · split at h
      · simp only [Prod.mk.injEq] at h
        obtain ⟨-, hm1⟩ := h
        subst hm1
        exact hm
      · split at h
        · simp only [Prod.mk.injEq] at h
          obtain ⟨-, hm1⟩ := h
          subst hm1
          simpa [Mmap.Size] using hm
        · simp only [Prod.mk.injEq] at h
          obtain ⟨-, hm1⟩ := h
          subst hm1
          simp [Mmap.Size, resizeBytes_length]
          omega
    · split at h
      · simp only [Prod.mk.injEq] at h
        obtain ⟨-, hm1⟩ := h
        subst hm1
        exact hm
      · simp only [Prod.mk.injEq] at h
        obtain ⟨-, hm1⟩ := h
        subst hm1
        simp [Mmap.Size, resizeBytes_length]
        omega

theorem mremap_size_lt (m : Mmap) (size : Int) (e : Option Err) (m1 : Mmap)
    (h : m.mremap size = .ret (e, m1)) (hm : m.Size < maxSize) :
    m1.Size < maxSize := by
  have hpos := maxSize_pos
  unfold Mmap.mremap at h
  split at h
  · simp only [GoResult.ret.injEq, Prod.mk.injEq] at h
    obtain ⟨-, hm1⟩ := h
    subst hm1
    exact hm
  · split at h
    · split at h
      · simp at h
      · split at h
        · simp only [GoResult.ret.injEq, Prod.mk.injEq] at h
          obtain ⟨-, hm1⟩ := h
          subst hm1
          simp [Mmap.Size]
          omega
        · simp only [GoResult.ret.injEq, Prod.mk.injEq] at h
          obtain ⟨-, hm1⟩ := h
          subst hm1
          simp [Mmap.Size]
          omega
    · split at h
      · simp only [GoResult.ret.injEq, Prod.mk.injEq] at h
        obtain ⟨-, hm1⟩ := h
        subst hm1
        exact hm
      · split at h
        · simp only [GoResult.ret.injEq, Prod.mk.injEq] at h
          obtain ⟨-, hm1⟩ := h
          subst hm1
          exact hm
        · split at h
          · simp only [GoResult.ret.injEq, Prod.mk.injEq] at h
            obtain ⟨-, hm1⟩ := h
            subst hm1
            simpa [Mmap.Size] using hm
          · simp only [GoResult.ret.injEq, Prod.mk.injEq] at h
            obtain ⟨-, hm1⟩ := h
            subst hm1
            simp [Mmap.Size, resizeBytes_length]
            omega

theorem read_size_pres (m : Mmap) (b : List Byte) (n : Nat) (b' : List Byte)
    (e : Option Err) (m' : Mmap) (h : m.Read b = .ret (n, b', e, m')) :
    m'.Size = m.Size := by
  cases hd : m.data with
  | none =>
    simp only [Mmap.Read, hd] at h
    simp only [GoResult.ret.injEq, Prod.mk.injEq] at h
    obtain ⟨-, -, -, hm⟩ := h
    subst hm
    rfl
  | some d =>
    simp only [Mmap.Read, hd] at h
    split at h
    · simp only [GoResult.ret.injEq, Prod.mk.injEq] at h
      obtain ⟨-, -, -, hm⟩ := h
      subst hm
      rfl
    · split at h
      · simp at h
      · simp only [GoResult.ret.injEq, Prod.mk.injEq] at h
        obtain ⟨-, -, -, hm⟩ := h
        subst hm
        simp [Mmap.Size, hd]

theorem write_size_lt (m : Mmap) (b : List Byte) (n : Nat) (e : Option Err)
    (m' : Mmap) (h : m.Write b = .ret (n, e, m')) (hm : m.Size < maxSize) :
    m'.Size < maxSize := by
  cases hd : m.data with
  | none =>
    rcases hmm : m.mmap [] (b.length : Int) with ⟨e1, m1⟩
    simp only [Mmap.Write, hd, hmm] at h
    cases e1 with
    | some e2 =>
      simp only [GoResult.ret.injEq, Prod.mk.injEq] at h
      obtain ⟨-, -, hm1⟩ := h
      subst hm1
      exact mmap_pair_size m [] _ _ _ hmm hm
    | none =>
      rw [writeFinish_inv m1 b n e m' h]
      exact mmap_pair_size m [] _ _ m1 hmm hm
  | some d =>
    have hsm : ∀ (mb : Mmap), mb.data = m.data → mb.Size = m.Size := by
      intro mb hmb
      simp [Mmap.Size, hmb]
    cases happ : m.append with
    | false =>
      simp only [Mmap.Write, hd, happ, Bool.false_eq_true, if_false] at h
      split at h
      · split at h
        · simp at h
        · next e2 m2 heq =>
          simp only [GoResult.ret.injEq, Prod.mk.injEq] at h
          obtain ⟨-, -, hm1⟩ := h
          subst hm1
          exact mremap_size_lt m _ _ _ heq hm
        · next m2 heq =>
          rw [writeFinish_inv m2 b n e m' h]
          exact mremap_size_lt m _ _ m2 heq hm
      · rw [writeFinish_inv m b n e m' h]
        exact hm
    | true =>
      simp only [Mmap.Write, hd, happ, if_true] at h
      split at h
      · split at h
        · simp at h
        · next e2 m2 heq =>
          simp only [GoResult.ret.injEq, Prod.mk.injEq] at h
          obtain ⟨-, -, hm1⟩ := h
          subst hm1
          refine mremap_size_lt _ _ _ _ heq ?_
          simpa [Mmap.Size, hd] using hm
        · next m2 heq =>
          rw [writeFinish_inv m2 b n e m' h]
          refine mremap_size_lt _ _ _ m2 heq ?_
          simpa [Mmap.Size, hd] using hm
      · rw [writeFinish_inv _ b n e m' h]
        simpa [Mmap.Size, hd] using hm

theorem writeAt_size_lt (m : Mmap) (b : List Byte) (off : Int) (n : Nat)
    (e : Option Err) (m' : Mmap) (h : m.WriteAt b off = .ret (n, e, m'))
    (hm : m.Size < maxSize) : m'.Size < maxSize := by
  cases happ : m.append with
  | true =>
    simp only [Mmap.WriteAt, happ, if_true] at h
    simp only [GoResult.ret.injEq, Prod.mk.injEq] at h
    obtain ⟨-, -, hm1⟩ := h
    subst hm1
    exact hm
  | false =>
    cases hd : m.data with
    | none =>
      rcases hmm : m.mmap [] (off + (b.length : Int)) with ⟨e1, m1⟩
      simp only [Mmap.WriteAt, happ, Bool.false_eq_true, if_false, hd, hmm] at h
      cases e1 with
      | some e2 =>
        simp only [GoResult.ret.injEq, Prod.mk.injEq] at h
        obtain ⟨-, -, hm1⟩ := h
        subst hm1
        exact mmap_pair_size m [] _ _ _ hmm hm
      | none =>
        obtain ⟨-, hsEq⟩ := writeAtFinish_inv m1 b off n e m' h
        rw [hsEq]
        exact mmap_pair_size m [] _ _ m1 hmm hm
    | some d =>
      simp only [Mmap.WriteAt, happ, Bool.false_eq_true, if_false, hd] at h
      split at h
      · split at h
        · simp at h
        · next e2 m2 heq =>
          simp only [GoResult.ret.injEq, Prod.mk.injEq] at h
          obtain ⟨-, -, hm1⟩ := h
          subst hm1
          exact mremap_size_lt m _ _ _ heq hm
        · next m2 heq =>
          obtain ⟨-, hsEq⟩ := writeAtFinish_inv m2 b off n e m' h
          rw [hsEq]
          exact mremap_size_lt m _ _ m2 heq hm
      · obtain ⟨-, hsEq⟩ := writeAtFinish_inv m b off n e m' h
        rw [hsEq]
        exact hm

theorem seekAbs_size_pres (m : Mmap) (a p : Int) (e : Option Err) (m' : Mmap)
    (h : m.seekAbs a = (p, e, m')) : m'.Size = m.Size := by
  unfold Mmap.seekAbs at h
  split at h
  · simp only [Prod.mk.injEq] at h
    obtain ⟨-, -, hm⟩ := h
    subst hm
    rfl
  · split at h
    · simp only [Prod.mk.injEq] at h
      obtain ⟨-, -, hm⟩ := h
      subst hm
      rfl
    · simp only [Prod.mk.injEq] at h
      obtain ⟨-, -, hm⟩ := h
      subst hm
      simp [Mmap.Size]

theorem seek_size_pres (m : Mmap) (off : Int) (w : Nat) (p : Int)
    (e : Option Err) (m' : Mmap) (h : m.Seek off w = (p, e, m')) :
    m'.Size = m.Size := by
  simp only [Mmap.Seek] at h
  split at h
  · exact seekAbs_size_pres m _ p e m' h
  · split at h
    · exact seekAbs_size_pres m _ p e m' h
    · split at h
      · exact seekAbs_size_pres m _ p e m' h
      · simp only [Prod.mk.injEq] at h
        obtain ⟨-, -, hm⟩ := h
        subst hm
        rfl

end Yammap

namespace Yammap

theorem init_size (m : Mmap) (h : InitHandle m) : m.Size < maxSize := by
  have hpos := maxSize_pos
  cases h with
  | openFile content flag m h =>
    simp only [OpenFile] at h
    split at h
    · rcases hmm : Mmap.mmap
        { flag := flag, offset := 0, data := none,
          append := flag &&& O_APPEND ≠ 0,
          fileSize := (content.length : Int) } content (content.length : Int)
        with ⟨e1, m1⟩
      rw [hmm] at h
      cases e1 with
      | some e2 => simp at h
      | none =>
        simp only [Except.ok.injEq] at h
        subst h
        refine mmap_pair_size _ content _ _ _ hmm ?_
        simp [Mmap.Size]
        omega
    · simp only [Except.ok.injEq] at h
      subst h
      simp [Mmap.Size]
      omega
  | create size flag m h =>
    simp only [Create] at h
    rcases hmm : Mmap.mmap
      { flag := flag, offset := 0, data := none, append := false, fileSize := 0 }
      [] size with ⟨e1, m1⟩
    rw [hmm] at h
    cases e1 with
    | some e2 => simp at h
    | none =>
      simp only [Except.ok.injEq] at h
      subst h
      refine mmap_pair_size _ [] _ _ _ hmm ?_
      simp [Mmap.Size]
      omega

theorem step_size (m m' : Mmap) (h : Step m m') (hm : m.Size < maxSize) :
    m'.Size < maxSize := by
  cases h with
  | read b n b' e mr h => rw [read_size_pres _ b n b' e _ h]; exact hm
  | write b n e mr h => exact write_size_lt _ b n e _ h hm
  | writeAt b off n e mr h => exact writeAt_size_lt _ b off n e _ h hm
  | seek off w p e mr h => rw [seek_size_pres _ off w p e _ h]; exact hm
  | truncateStep sz e mr h =>
    simp only [Mmap.Truncate] at h
    exact mremap_size_lt _ sz e _ h hm
  | closeStep e mr h =>
    simp only [Mmap.Close, Prod.mk.injEq] at h
    obtain ⟨-, hm1⟩ := h
    subst hm1
    exact hm

/-- C3 (amended): in every state reachable through the public operations the
mapped region's length stays strictly below the architecture's
`maxMappingSize` (hence never exceeds it) — but it need NOT be a multiple of
a page size: no operation aligns sizes (see the counterexample). -/
theorem reachable_size_lt_max (m : Mmap) (h : Reachable m) :
    m.Size < maxSize := by
  obtain ⟨m0, hinit, hsteps⟩ := h
  induction hsteps with
  | refl => exact init_size m0 hinit
  | tail h1 h2 ih => exact step_size _ _ h2 ih

theorem reachable_size_lt_max_witness :
    (Mmap.mk 66 0 (some (List.replicate 10 0)) false 10).Size < maxSize :=
  reachable_size_lt_max (Mmap.mk 66 0 (some (List.replicate 10 0)) false 10)
    ⟨Mmap.mk 66 0 (some (List.replicate 10 0)) false 10,
      InitHandle.create 10 66 _ (by rfl), Relation.ReflTransGen.refl⟩

/-- C3 counterexample: `Create` with size 10 yields a reachable state whose
mapped length is 10 — non-zero and not a multiple of the page size, since
the code never aligns sizes. -/
theorem pagesize_multiple_refuted :
    Reachable (Mmap.mk 66 0 (some (List.replicate 10 0)) false 10) ∧
    Mmap.Size (Mmap.mk 66 0 (some (List.replicate 10 0)) false 10) = 10 ∧
    (10 : Int) ≠ 0 ∧ ¬ (pageSize ∣ (10 : Nat)) :=
  ⟨⟨Mmap.mk 66 0 (some (List.replicate 10 0)) false 10,
      InitHandle.create 10 66 _ (by rfl), Relation.ReflTransGen.refl⟩,
    by decide, by decide, by decide⟩

end Yammap
